import Mathlib

/-!
# SerWave core: a shallow embedding in Lean 4

This file embeds the core of the SerWave serial-terminal program
(crates `serwave-core` and the event-loop of `serwave-app`) and proves
properties of the embedded definitions.

Modelling conventions:
* Rust `Vec<u8>` and `&[u8]` become `List Nat` (each element intended `< 256`);
  Rust `String` results become Lean `String` (or `List Char` for decoder
  internals, since a Lean `String` is a list of Unicode scalar values).
* Wall-clock reads (`SystemTime::now`) become an explicit `now : Nat`
  parameter, in integer milliseconds since the epoch, exactly the value the
  code obtains with `duration_since(UNIX_EPOCH).as_millis() as u64`.
* The `u64` subtraction `elapsed - entry.timestamp` in
  `LogStore::to_text_with_encoding` overflows when `elapsed < timestamp`;
  the rendering functions therefore return `Option String`, with `none`
  modelling that arithmetic-overflow fault.
* The external codec crates (`encoding_rs`, `chardetng`) are not part of
  this repository.  The UTF-8 validator and the lenient UTF-8 decoder are
  modelled exactly (RFC 3629 byte ranges, which is what
  `std::str::from_utf8` and `encoding_rs::UTF_8` implement); the UTF-16LE
  codec, the GBK codec and the chardetng statistical detector are modelled
  abstractly as total functions, since no claim below depends on their
  output values, only on their totality.
-/

namespace SerWave

/-- The Unicode replacement character U+FFFD used by lenient decoders. -/
def replacementChar : Char := Char.ofNat 0xFFFD

/-- Is `b` a UTF-8 continuation byte (`0x80..=0xBF`)? -/
def isUtf8Cont (b : Nat) : Prop := 0x80 ≤ b ∧ b < 0xC0

instance (b : Nat) : Decidable (isUtf8Cont b) := by unfold isUtf8Cont; infer_instance

/-- Allowed second byte after a three-byte leader `b` (RFC 3629 table:
`E0` requires `A0..BF`, `ED` requires `80..9F`, others `80..BF`). -/
def utf8Cont3 (b b2 : Nat) : Prop :=
  if b = 0xE0 then 0xA0 ≤ b2 ∧ b2 < 0xC0
  else if b = 0xED then 0x80 ≤ b2 ∧ b2 < 0xA0
  else isUtf8Cont b2

instance (b b2 : Nat) : Decidable (utf8Cont3 b b2) := by unfold utf8Cont3; infer_instance

/-- Allowed second byte after a four-byte leader `b` (RFC 3629 table:
`F0` requires `90..BF`, `F4` requires `80..8F`, others `80..BF`). -/
def utf8Cont4 (b b2 : Nat) : Prop :=
  if b = 0xF0 then 0x90 ≤ b2 ∧ b2 < 0xC0
  else if b = 0xF4 then 0x80 ≤ b2 ∧ b2 < 0x90
  else isUtf8Cont b2

instance (b b2 : Nat) : Decidable (utf8Cont4 b b2) := by unfold utf8Cont4; infer_instance

/-- One step of strict UTF-8 validation: if the input starting at byte `b`
begins with a well-formed sequence (RFC 3629: no overlongs, no surrogates,
max U+10FFFF), the input remaining after it, else `none`. -/
def utf8ValidStep (b : Nat) (rest : List Nat) : Option (List Nat) :=
  if b < 0x80 then some rest
  else if b < 0xC2 then none
  else if b < 0xE0 then
    match rest with
    | b2 :: r2 => if isUtf8Cont b2 then some r2 else none
    | [] => none
  else if b < 0xF0 then
    match rest with
    | b2 :: b3 :: r3 => if utf8Cont3 b b2 ∧ isUtf8Cont b3 then some r3 else none
    | _ => none
  else if b < 0xF5 then
    match rest with
    | b2 :: b3 :: b4 :: r4 =>
      if utf8Cont4 b b2 ∧ isUtf8Cont b3 ∧ isUtf8Cont b4 then some r4 else none
    | _ => none
  else none

/-- Iterate `utf8ValidStep`; the fuel is immaterial whenever it is at least
the input length, since every step consumes at least one byte. -/
def isValidUtf8Aux : Nat → List Nat → Bool
  | _, [] => true
  | 0, _ :: _ => false
  | fuel + 1, b :: rest =>
    match utf8ValidStep b rest with
    | some r => isValidUtf8Aux fuel r
    | none => false

/-- Strict UTF-8 validity of a whole byte sequence, as checked by
`std::str::from_utf8`. -/
def isValidUtf8 (bs : List Nat) : Bool :=
  isValidUtf8Aux bs.length bs

/-- One step of lenient UTF-8 decoding (`encoding_rs::UTF_8.decode`): given
the first byte `b` and the bytes after it, the scalars emitted for the
sequence starting at `b` and the remaining input.  Valid sequences decode
exactly; a malformed sequence yields U+FFFD.  (The exact resynchronisation
point on malformed input is irrelevant to every claim below, which only
evaluate the decoder on valid input or rely on its totality.) -/
def utf8Step (b : Nat) (rest : List Nat) : List Char × List Nat :=
  if b < 0x80 then ([Char.ofNat b], rest)
  else if b < 0xC2 then ([replacementChar], rest)
  else if b < 0xE0 then
    match rest with
    | b2 :: r2 =>
      if isUtf8Cont b2 then ([Char.ofNat ((b - 0xC0) * 0x40 + (b2 - 0x80))], r2)
      else ([replacementChar], r2)
    | [] => ([replacementChar], [])
  else if b < 0xF0 then
    match rest with
    | b2 :: b3 :: r3 =>
      if utf8Cont3 b b2 ∧ isUtf8Cont b3 then
        ([Char.ofNat ((b - 0xE0) * 0x1000 + (b2 - 0x80) * 0x40 + (b3 - 0x80))], r3)
      else ([replacementChar], r3)
    | _ => ([replacementChar], [])
  else if b < 0xF5 then
    match rest with
    | b2 :: b3 :: b4 :: r4 =>
      if utf8Cont4 b b2 ∧ isUtf8Cont b3 ∧ isUtf8Cont b4 then
        ([Char.ofNat ((b - 0xF0) * 0x40000 + (b2 - 0x80) * 0x1000 +
            (b3 - 0x80) * 0x40 + (b4 - 0x80))], r4)
      else ([replacementChar], r4)
    | _ => ([replacementChar], [])
  else ([replacementChar], rest)

/-- Iterate `utf8Step`; the fuel only bounds the iteration count and is
immaterial whenever it is at least the input length (`utf8DecodeAux_fuel`
below), since every step consumes at least one byte. -/
def utf8DecodeAux : Nat → List Nat → List Char
  | _, [] => []
  | 0, _ :: _ => []
  | fuel + 1, b :: rest => (utf8Step b rest).1 ++ utf8DecodeAux fuel (utf8Step b rest).2

/-- Lenient UTF-8 decoding of a whole byte sequence. -/
def utf8Decode (bs : List Nat) : List Char :=
  utf8DecodeAux bs.length bs

/-- The standard UTF-8 encoding of one Unicode scalar value. -/
def utf8EncodeChar (c : Char) : List Nat :=
  let n := c.toNat
  if n < 0x80 then [n]
  else if n < 0x800 then [0xC0 + n / 0x40, 0x80 + n % 0x40]
  else if n < 0x10000 then
    [0xE0 + n / 0x1000, 0x80 + (n / 0x40) % 0x40, 0x80 + n % 0x40]
  else
    [0xF0 + n / 0x40000, 0x80 + (n / 0x1000) % 0x40, 0x80 + (n / 0x40) % 0x40, 0x80 + n % 0x40]

/-- UTF-8 encoding of a character sequence (Rust `str::as_bytes`). -/
def utf8EncodeList : List Char → List Nat
  | [] => []
  | c :: cs => utf8EncodeChar c ++ utf8EncodeList cs

/-- Abstract total model of the external `encoding_rs::UTF_16LE` lenient
decoder; no claim depends on its values, only on its totality. -/
def utf16leDecode (bytes : List Nat) : List Char :=
  bytes.map fun _ => replacementChar

/-- Abstract total model of the external `encoding_rs::GBK` lenient decoder;
no claim depends on its values, only on its totality. -/
def gbkDecode (bytes : List Nat) : List Char :=
  bytes.map fun _ => replacementChar

/-- Abstract total model of the external `chardetng` detector followed by a
lenient decode with the guessed codec; no claim depends on its values, only
on its totality. -/
def chardetngDecode (bytes : List Nat) : List Char :=
  bytes.map fun _ => replacementChar

/-- `TextEncoding` from `serwave-core/src/encoding.rs`. -/
inductive TextEncoding
  | Auto
  | Utf8
  | Utf16
  | Ascii
  | Gbk
  | Gb2312
deriving DecidableEq, Repr

/-- `detect_and_decode` from `serwave-core/src/encoding.rs`: empty input
decodes to the empty string; otherwise strict UTF-8 validation
(`std::str::from_utf8`) and, if valid, the exact UTF-8 decoding; otherwise
the chardetng fallback. -/
def detect_and_decode (bytes : List Nat) : List Char :=
  if bytes = [] then []
  else if isValidUtf8 bytes then utf8Decode bytes
  else chardetngDecode bytes

/-- `TextEncoding::decode` from `serwave-core/src/encoding.rs`. -/
def TextEncoding.decode (e : TextEncoding) (bytes : List Nat) : List Char :=
  match e with
  | .Auto => detect_and_decode bytes
  | .Utf8 => utf8Decode bytes
  | .Utf16 => utf16leDecode bytes
  | .Ascii => bytes.map fun b => if b < 128 then Char.ofNat b else '?'
  | .Gbk | .Gb2312 => gbkDecode bytes

/-- `Direction` from `serwave-core/src/logbuf.rs`. -/
inductive Direction
  | Rx
  | Tx
deriving DecidableEq, Repr

/-- `LogEntry` from `serwave-core/src/logbuf.rs`; `timestamp` is in integer
milliseconds since the epoch. -/
structure LogEntry where
  timestamp : Nat
  direction : Direction
  data : List Nat
deriving DecidableEq, Repr

/-- `LogStore` from `serwave-core/src/logbuf.rs`. -/
structure LogStore where
  entries : List LogEntry
  max_entries : Nat
  filter_rx : Bool
  filter_tx : Bool
  highlight_keywords : List String
deriving DecidableEq, Repr

/-- `LogStore::new`. -/
def LogStore.new (max_entries : Nat) : LogStore :=
  { entries := [], max_entries := max_entries, filter_rx := true, filter_tx := true,
    highlight_keywords := [] }

/-- `LogStore::set_filter`. -/
def LogStore.set_filter (s : LogStore) (show_rx show_tx : Bool) : LogStore :=
  { s with filter_rx := show_rx, filter_tx := show_tx }

/-- `LogStore::set_highlight_keywords`. -/
def LogStore.set_highlight_keywords (s : LogStore) (keywords : List String) : LogStore :=
  { s with highlight_keywords := keywords }

/-- `LogStore::push`: stamp the current wall-clock time (`now`, in
milliseconds, passed explicitly), append, and if the length now exceeds
`max_entries` remove the element at index 0 (the oldest). -/
def LogStore.push (s : LogStore) (now : Nat) (direction : Direction) (data : List Nat) :
    LogStore :=
  let entries := s.entries ++ [{ timestamp := now, direction := direction, data := data }]
  if entries.length > s.max_entries then { s with entries := entries.drop 1 }
  else { s with entries := entries }

/-- A sequence of `push` calls, oldest first; each element carries the
wall-clock value observed by that push. -/
def LogStore.pushMany (s : LogStore) : List (Nat × Direction × List Nat) → LogStore
  | [] => s
  | (now, d, data) :: rest => (s.push now d data).pushMany rest

/-- The entry a push with the given wall-clock value and arguments creates. -/
def mkEntry (p : Nat × Direction × List Nat) : LogEntry :=
  { timestamp := p.1, direction := p.2.1, data := p.2.2 }

/-- `LogStore::clear`. -/
def LogStore.clear (s : LogStore) : LogStore :=
  { s with entries := [] }

/-- One uppercase hexadecimal digit. -/
def hexDigit (n : Nat) : Char :=
  if n < 10 then Char.ofNat (48 + n) else Char.ofNat (55 + n)

/-- Rust `format!("{byte:02X} ")` for a `u8`: two uppercase hex digits and a
space. -/
def hexByte (b : Nat) : String :=
  String.mk [hexDigit (b / 16 % 16), hexDigit (b % 16), ' ']

/-- The hex body of an entry: every byte as `hexByte`, concatenated. -/
def hexBody (data : List Nat) : String :=
  match data with
  | [] => ""
  | b :: rest => hexByte b ++ hexBody rest

/-- Rust `format!("{n:02}")` for the values produced here (all `< 100`). -/
def pad2 (n : Nat) : String :=
  if n < 10 then "0" ++ toString n else toString n

/-- Rust `format!("{n:03}")` for the values produced here (all `< 1000`). -/
def pad3 (n : Nat) : String :=
  if n < 10 then "00" ++ toString n
  else if n < 100 then "0" ++ toString n
  else toString n

/-- The timestamp prefix `[HH:MM:SS.mmm] ` that
`LogStore::to_text_with_encoding` computes from an entry timestamp `ts`
(milliseconds since epoch).  The code re-bases `SystemTime::now()` by
`elapsed - ts` milliseconds, which lands back on `ts` itself (sub-millisecond
remainder cannot change any printed field), then adds a fixed UTC+8 offset. -/
def formatTsMark (ts : Nat) : String :=
  let millis := ts % 1000
  let total_secs := ts / 1000
  let local_secs := total_secs + 8 * 3600
  let hours := local_secs / 3600 % 24
  let minutes := local_secs / 60 % 60
  let seconds := local_secs % 60
  "[" ++ pad2 hours ++ ":" ++ pad2 minutes ++ ":" ++ pad2 seconds ++ "." ++ pad3 millis ++ "] "

/-- Is `c` whitespace for Rust `char::is_whitespace` (Unicode
`White_Space`)?  Used to model `text.trim().is_empty()`. -/
def isRustWhitespace (c : Char) : Bool :=
  let n := c.toNat
  (0x09 ≤ n && n ≤ 0x0D) || n == 0x20 || n == 0x85 || n == 0xA0 || n == 0x1680 ||
    (0x2000 ≤ n && n ≤ 0x200A) || n == 0x2028 || n == 0x2029 || n == 0x202F ||
    n == 0x205F || n == 0x3000

/-- Rust `str::replace`: replace every non-overlapping occurrence of `pat`,
left to right.  (`LogStore` only calls this with a non-empty `pat`.) -/
def listReplace (pat rep : List Char) : List Char → List Char
  | [] => []
  | c :: rest =>
    if h : pat ≠ [] ∧ pat.isPrefixOf (c :: rest) then
      rep ++ listReplace pat rep (List.drop pat.length (c :: rest))
    else c :: listReplace pat rep rest
termination_by l => l.length
decreasing_by
  all_goals simp [List.length_cons, List.length_drop]
  all_goals try omega
  all_goals
    have hp : pat.length ≠ 0 := fun hz => h.1 (List.eq_nil_of_length_eq_zero hz)
  all_goals omega

/-- The keyword-highlight pass of `LogStore::to_text_with_encoding`: each
non-empty keyword, in list order, has all its occurrences wrapped in
`【`…`】`. -/
def applyHighlights (kws : List String) (text : List Char) : List Char :=
  kws.foldl
    (fun t k =>
      if k.data = [] then t
      else listReplace k.data ('【' :: k.data ++ ['】']) t)
    text

/-- The `"RX: "` / `"TX: "` direction tag. -/
def dirTag : Direction → String
  | .Rx => "RX: "
  | .Tx => "TX: "

/-- One iteration of the entry loop in `LogStore::to_text_with_encoding`.
`none` models the arithmetic-overflow fault of the `u64` subtraction
`elapsed - entry.timestamp` when the wall clock (`now`) is behind the stored
timestamp; `some ""` models an entry that is skipped (`continue`). -/
def renderEntry (fRx fTx : Bool) (kws : List String) (now : Nat)
    (show_timestamp show_hex : Bool) (enc : TextEncoding) (e : LogEntry) : Option String :=
  if (e.direction = .Rx ∧ fRx = false) ∨ (e.direction = .Tx ∧ fTx = false) then some ""
  else if show_hex then
    if show_timestamp then
      if e.timestamp ≤ now then
        some (formatTsMark e.timestamp ++ dirTag e.direction ++ hexBody e.data ++ "\n")
      else none
    else some (dirTag e.direction ++ hexBody e.data ++ "\n")
  else
    let text := enc.decode e.data
    if text.all isRustWhitespace then some ""
    else
      let text := applyHighlights kws text
      let body := dirTag e.direction ++ String.mk text ++
        (if text.getLast? = some '\n' then "" else "\n")
      if show_timestamp then
        if e.timestamp ≤ now then some (formatTsMark e.timestamp ++ body) else none
      else some body

/-- The entry loop of `LogStore::to_text_with_encoding`, accumulating the
rendered pieces in entry order. -/
def renderEntries (fRx fTx : Bool) (kws : List String) (now : Nat)
    (show_timestamp show_hex : Bool) (enc : TextEncoding) : List LogEntry → Option String
  | [] => some ""
  | e :: rest =>
    match renderEntry fRx fTx kws now show_timestamp show_hex enc e,
        renderEntries fRx fTx kws now show_timestamp show_hex enc rest with
    | some h, some t => some (h ++ t)
    | _, _ => none

/-- `LogStore::to_text_with_encoding`, with the wall clock passed explicitly;
`none` models the timestamp-arithmetic overflow fault. -/
def LogStore.to_text_with_encoding (s : LogStore) (now : Nat)
    (show_timestamp show_hex : Bool) (enc : TextEncoding) : Option String :=
  renderEntries s.filter_rx s.filter_tx s.highlight_keywords now show_timestamp show_hex enc
    s.entries

/-- `LogStore::to_text` (delegates with `TextEncoding::Auto`). -/
def LogStore.to_text (s : LogStore) (now : Nat) (show_timestamp show_hex : Bool) :
    Option String :=
  s.to_text_with_encoding now show_timestamp show_hex .Auto

/-- Does `to_text_with_encoding` reach the body of the loop for this entry
(i.e. is the entry neither filtered out nor suppressed as all-whitespace in
text mode)?  Exactly these entries have the timestamp subtraction evaluated
on them when `show_timestamp` is on. -/
def LogEntry.rendered (fRx fTx : Bool) (show_hex : Bool) (enc : TextEncoding)
    (e : LogEntry) : Bool :=
  (match e.direction with | .Rx => fRx | .Tx => fTx) &&
    (show_hex || !(enc.decode e.data).all isRustWhitespace)

/-- Rust `buf.iter().position(|&b| b == b'\n')`: index of the first newline
byte (0x0A), if any. -/
def position10 : List Nat → Option Nat
  | [] => none
  | b :: rest => if b = 10 then some 0 else (position10 rest).map (· + 1)

/-- The newline-extraction loop of the Rx arm in `serwave-app/src/main.rs`:
while the buffer contains a 0x0A byte, drain the bytes up to and including
the first one as a flushed line.  Returns the flushed lines in flush order
and the remaining buffer. -/
def extractLines : List Nat → List (List Nat) × List Nat
  | [] => ([], [])
  | b :: rest =>
    if b = 10 then ([10] :: (extractLines rest).1, (extractLines rest).2)
    else
      match extractLines rest with
      | (l :: ls, r) => ((b :: l) :: ls, r)
      | ([], r) => ([], b :: r)

/-- One execution of the `SerialEvent::Rx(data)` arm of the event-poll timer
in `serwave-app/src/main.rs`: `force_flush` is the value of the elapsed-time
test (`now - last_rx_time > 100 ms`, `false` for the first chunk), `buf` the
accumulation buffer, `chunk` the incoming bytes.  Returns the lines pushed
to the log, in push order, and the new buffer. -/
def feedChunk (force_flush : Bool) (buf chunk : List Nat) : List (List Nat) × List Nat :=
  let buf := buf ++ chunk
  let out := extractLines buf
  if (force_flush ∧ out.2 ≠ []) ∨ out.2.length > 1024 then (out.1 ++ [out.2], [])
  else (out.1, out.2)

/-- A whole sequence of Rx chunks fed through the framing arm, starting from
buffer `buf`; each chunk carries its elapsed-time-test value.  Returns all
flushed lines in flush order and the final buffer. -/
def feedAll (buf : List Nat) : List (Bool × List Nat) → List (List Nat) × List Nat
  | [] => ([], buf)
  | (ff, chunk) :: rest =>
    let out := feedChunk ff buf chunk
    let tail := feedAll out.2 rest
    (out.1 ++ tail.1, tail.2)

/-- `PinStates` from `serwave-core/src/serial_service.rs`. -/
structure PinStates where
  cts : Bool
  dsr : Bool
  dcd : Bool
  ri : Bool
deriving DecidableEq, Repr

/-- `SerialEvent` from `serwave-core/src/serial_service.rs`. -/
inductive SerialEvent
  | Rx (data : List Nat)
  | Tx (n : Nat)
  | Opened (port : String)
  | Closed
  | Error (msg : String)
  | PinStates (s : PinStates)
deriving DecidableEq, Repr

/-- One command drained by the actor loop, paired with the device's response
to it (the response is environment input to the model): `send` carries the
`port.write` outcome, `setDtr`/`setRts` the failure of the toggle if any,
`getPinStates` the four line levels read back. -/
inductive CmdIn
  | send (data : List Nat) (result : Except String Nat)
  | setDtr (state : Bool) (err : Option String)
  | setRts (state : Bool) (err : Option String)
  | getPinStates (s : PinStates)
  | close
deriving Repr

/-- The events the actor emits for one non-`Close` drained command
(the `match cmd` in the actor loop of `SerialService::open`). -/
def cmdEvents : CmdIn → List SerialEvent
  | .send _ (.ok n) => [.Tx n]
  | .send _ (.error e) => [.Error e]
  | .setDtr _ none => []
  | .setDtr _ (some e) => [.Error e]
  | .setRts _ none => []
  | .setRts _ (some e) => [.Error e]
  | .getPinStates s => [.PinStates s]
  | .close => [.Closed]

/-- The `while let Ok(cmd) = rx_cmd.try_recv()` drain: process commands in
order; on `Close` emit `Closed` and report termination, ignoring the rest. -/
def drainCmds : List CmdIn → List SerialEvent × Bool
  | [] => ([], false)
  | .close :: _ => ([SerialEvent.Closed], true)
  | c :: rest =>
    let out := drainCmds rest
    (cmdEvents c ++ out.1, out.2)

/-- Environment input for one iteration of the actor loop: the bytes the
bounded-timeout `port.read` returned (empty for `Ok(0)` or `Err(_)`), and
the commands found queued, each with its device response. -/
structure ActorIter where
  readBytes : List Nat
  cmds : List CmdIn
deriving Repr

/-- The actor loop of `SerialService::open` after a successful open, run over
a finite prefix of iteration inputs: emit `Rx` for a non-empty read, drain
the command queue, and stop (returning from the thread) when a `Close`
command was drained. -/
def actorLoop : List ActorIter → List SerialEvent
  | [] => []
  | it :: rest =>
    let rxEvents := if it.readBytes = [] then [] else [SerialEvent.Rx it.readBytes]
    let out := drainCmds it.cmds
    rxEvents ++ out.1 ++ (if out.2 then [] else actorLoop rest)

/-- The full event trace of one actor lifetime (`SerialService::open`'s
spawned thread): on open failure, `Error` then `Closed` and the thread
returns; on success, `Opened` then the loop trace. -/
def actorTrace (portName : String) (openResult : Except String Unit)
    (iters : List ActorIter) : List SerialEvent :=
  match openResult with
  | .error e => [SerialEvent.Error ("open failed: " ++ e), SerialEvent.Closed]
  | .ok _ => SerialEvent.Opened portName :: actorLoop iters

/-- `Command` from `serwave-core/src/serial_service.rs` (what the handle
methods enqueue). -/
inductive Command
  | Send (data : List Nat)
  | Close
  | SetDtr (state : Bool)
  | SetRts (state : Bool)
  | GetPinStates
deriving DecidableEq, Repr

/-- A crossbeam `Sender::send` on the command channel: succeeds exactly when
the receiver (the actor thread) is still alive; a single attempt, no retry. -/
def channelSend (connected : Bool) (_ : Command) : Except String Unit :=
  if connected then .ok () else .error "sending on a disconnected channel"

/-- `SerialService::send`: one `channelSend`, its error mapped to `String`. -/
def SerialService.send (connected : Bool) (data : List Nat) : Except String Unit :=
  channelSend connected (.Send data)

/-- `SerialService::set_dtr`. -/
def SerialService.set_dtr (connected : Bool) (state : Bool) : Except String Unit :=
  channelSend connected (.SetDtr state)

/-- `SerialService::set_rts`. -/
def SerialService.set_rts (connected : Bool) (state : Bool) : Except String Unit :=
  channelSend connected (.SetRts state)

/-- `SerialService::request_pin_states`. -/
def SerialService.request_pin_states (connected : Bool) : Except String Unit :=
  channelSend connected .GetPinStates

/-- `SerialService::close`: the source is `let _ = self.tx_cmd.send(Command::Close);`
returning `()` — the send outcome is discarded, so the caller always gets a
success-shaped unit result, modelled as `Except.ok ()`. -/
def SerialService.close (connected : Bool) : Except String Unit :=
  let _ := channelSend connected .Close
  .ok ()

/-- Concatenation of a sequence of byte chunks (or of flushed lines). -/
def concatChunks : List (List Nat) → List Nat
  | [] => []
  | x :: xs => x ++ concatChunks xs

/-! ## Theorems -/

/-- `utf8EncodeChar` on a one-byte scalar. -/
theorem utf8EncodeChar_one (c : Char) (h : c.toNat < 0x80) :
    utf8EncodeChar c = [c.toNat] := by
  simp [utf8EncodeChar, h]

/-- `utf8EncodeChar` on a two-byte scalar. -/
theorem utf8EncodeChar_two (c : Char) (h1 : 0x80 ≤ c.toNat) (h2 : c.toNat < 0x800) :
    utf8EncodeChar c = [0xC0 + c.toNat / 0x40, 0x80 + c.toNat % 0x40] := by
  have e1 : ¬ c.toNat < 0x80 := by omega
  simp [utf8EncodeChar, e1, h2]

/-- `utf8EncodeChar` on a three-byte scalar. -/
theorem utf8EncodeChar_three (c : Char) (h1 : 0x800 ≤ c.toNat) (h2 : c.toNat < 0x10000) :
    utf8EncodeChar c =
      [0xE0 + c.toNat / 0x1000, 0x80 + (c.toNat / 0x40) % 0x40, 0x80 + c.toNat % 0x40] := by
  have e1 : ¬ c.toNat < 0x80 := by omega
  have e2 : ¬ c.toNat < 0x800 := by omega
  simp [utf8EncodeChar, e1, e2, h2]

/-- `utf8EncodeChar` on a four-byte scalar. -/
theorem utf8EncodeChar_four (c : Char) (h1 : 0x10000 ≤ c.toNat) :
    utf8EncodeChar c =
      [0xF0 + c.toNat / 0x40000, 0x80 + (c.toNat / 0x1000) % 0x40,
        0x80 + (c.toNat / 0x40) % 0x40, 0x80 + c.toNat % 0x40] := by
  have e1 : ¬ c.toNat < 0x80 := by omega
  have e2 : ¬ c.toNat < 0x800 := by omega
  have e3 : ¬ c.toNat < 0x10000 := by omega
  simp [utf8EncodeChar, e1, e2, e3]

/-- One decode step never leaves more input than it was given. -/
theorem utf8Step_snd_length (b : Nat) (rest : List Nat) :
    (utf8Step b rest).2.length ≤ rest.length := by
  rcases rest with _ | ⟨b2, _ | ⟨b3, _ | ⟨b4, r⟩⟩⟩ <;>
    (simp only [utf8Step]; split_ifs <;> simp [List.length_cons] <;> omega)

/-- The fuel of `utf8DecodeAux` is immaterial once it covers the input
length. -/
theorem utf8DecodeAux_fuel (f : Nat) :
    ∀ (g : Nat) (bs : List Nat), bs.length ≤ f → bs.length ≤ g →
      utf8DecodeAux f bs = utf8DecodeAux g bs := by
  induction f with
  | zero =>
    intro g bs hf hg
    have hbs : bs = [] := List.eq_nil_of_length_eq_zero (Nat.le_zero.mp hf)
    subst hbs
    cases g <;> rfl
  | succ f ih =>
    intro g bs hf hg
    cases bs with
    | nil => cases g <;> rfl
    | cons b rest =>
      cases g with
      | zero => simp [List.length_cons] at hg
      | succ g =>
        simp only [utf8DecodeAux]
        have hlen := utf8Step_snd_length b rest
        simp only [List.length_cons] at hf hg
        rw [ih g (utf8Step b rest).2 (by omega) (by omega)]

/-- `utf8DecodeAux` with sufficient fuel is `utf8Decode`. -/
theorem utf8DecodeAux_eq_decode (f : Nat) (bs : List Nat) (h : bs.length ≤ f) :
    utf8DecodeAux f bs = utf8Decode bs :=
  utf8DecodeAux_fuel f bs.length bs h (Nat.le_refl _)

/-- Unfolding `utf8Decode` on an ASCII byte. -/
theorem utf8Decode_one (b : Nat) (bs : List Nat) (h : b < 0x80) :
    utf8Decode (b :: bs) = Char.ofNat b :: utf8Decode bs := by
  unfold utf8Decode
  simp only [List.length_cons, utf8DecodeAux]
  simp [utf8Step, h]

/-- Unfolding `utf8Decode` on a valid two-byte sequence. -/
theorem utf8Decode_two (b b2 : Nat) (bs : List Nat)
    (h1 : 0xC2 ≤ b) (h2 : b < 0xE0) (h3 : isUtf8Cont b2) :
    utf8Decode (b :: b2 :: bs)
      = Char.ofNat ((b - 0xC0) * 0x40 + (b2 - 0x80)) :: utf8Decode bs := by
  have e1 : ¬ b < 0x80 := by omega
  have e2 : ¬ b < 0xC2 := by omega
  have hstep : utf8Step b (b2 :: bs)
      = ([Char.ofNat ((b - 0xC0) * 0x40 + (b2 - 0x80))], bs) := by
    simp [utf8Step, e1, e2, h2, h3]
  unfold utf8Decode
  simp only [List.length_cons, utf8DecodeAux, hstep]
  rw [utf8DecodeAux_eq_decode (bs.length + 1) bs (by omega)]
  simp [utf8Decode]

/-- Unfolding `utf8Decode` on a valid three-byte sequence. -/
theorem utf8Decode_three (b b2 b3 : Nat) (bs : List Nat)
    (h1 : 0xE0 ≤ b) (h2 : b < 0xF0) (h3 : utf8Cont3 b b2) (h4 : isUtf8Cont b3) :
    utf8Decode (b :: b2 :: b3 :: bs)
      = Char.ofNat ((b - 0xE0) * 0x1000 + (b2 - 0x80) * 0x40 + (b3 - 0x80))
          :: utf8Decode bs := by
  have e1 : ¬ b < 0x80 := by omega
  have e2 : ¬ b < 0xC2 := by omega
  have e3 : ¬ b < 0xE0 := by omega
  have hstep : utf8Step b (b2 :: b3 :: bs)
      = ([Char.ofNat ((b - 0xE0) * 0x1000 + (b2 - 0x80) * 0x40 + (b3 - 0x80))], bs) := by
    simp [utf8Step, e1, e2, e3, h2, h3, h4]
  unfold utf8Decode
  simp only [List.length_cons, utf8DecodeAux, hstep]
  rw [utf8DecodeAux_eq_decode (bs.length + 1 + 1) bs (by omega)]
  simp [utf8Decode]

/-- Unfolding `utf8Decode` on a valid four-byte sequence. -/
theorem utf8Decode_four (b b2 b3 b4 : Nat) (bs : List Nat)
    (h1 : 0xF0 ≤ b) (h2 : b < 0xF5) (h3 : utf8Cont4 b b2)
    (h4 : isUtf8Cont b3) (h5 : isUtf8Cont b4) :
    utf8Decode (b :: b2 :: b3 :: b4 :: bs)
      = Char.ofNat ((b - 0xF0) * 0x40000 + (b2 - 0x80) * 0x1000 +
          (b3 - 0x80) * 0x40 + (b4 - 0x80)) :: utf8Decode bs := by
  have e1 : ¬ b < 0x80 := by omega
  have e2 : ¬ b < 0xC2 := by omega
  have e3 : ¬ b < 0xE0 := by omega
  have e4 : ¬ b < 0xF0 := by omega
  have hstep : utf8Step b (b2 :: b3 :: b4 :: bs)
      = ([Char.ofNat ((b - 0xF0) * 0x40000 + (b2 - 0x80) * 0x1000 +
          (b3 - 0x80) * 0x40 + (b4 - 0x80))], bs) := by
    simp [utf8Step, e1, e2, e3, e4, h2, h3, h4, h5]
  unfold utf8Decode
  simp only [List.length_cons, utf8DecodeAux, hstep]
  rw [utf8DecodeAux_eq_decode (bs.length + 1 + 1 + 1) bs (by omega)]
  simp [utf8Decode]

/-- Decoding the UTF-8 encoding of one scalar prepended to anything peels
off exactly that scalar. -/
theorem utf8Decode_encodeChar (c : Char) (bs : List Nat) :
    utf8Decode (utf8EncodeChar c ++ bs) = c :: utf8Decode bs := by
  have hv : c.toNat < 0xd800 ∨ (0xdfff < c.toNat ∧ c.toNat < 0x110000) := c.valid
  rcases Nat.lt_or_ge c.toNat 0x80 with h1 | h1
  · rw [utf8EncodeChar_one c h1]
    simpa [utf8Decode_one _ _ h1] using congrArg (· :: utf8Decode bs) (Char.ofNat_toNat c)
  rcases Nat.lt_or_ge c.toNat 0x800 with h2 | h2
  · rw [utf8EncodeChar_two c h1 h2]
    rw [List.cons_append, List.cons_append, List.nil_append,
      utf8Decode_two _ _ _ (by omega) (by omega) (by unfold isUtf8Cont; omega)]
    have harith : (0xC0 + c.toNat / 0x40 - 0xC0) * 0x40 + (0x80 + c.toNat % 0x40 - 0x80)
        = c.toNat := by omega
    rw [harith, Char.ofNat_toNat]
  rcases Nat.lt_or_ge c.toNat 0x10000 with h3 | h3
  · rw [utf8EncodeChar_three c h2 h3]
    have hc3 : utf8Cont3 (0xE0 + c.toNat / 0x1000) (0x80 + (c.toNat / 0x40) % 0x40) := by
      unfold utf8Cont3 isUtf8Cont
      split
      · omega
      · split
        · omega
        · omega
    rw [List.cons_append, List.cons_append, List.cons_append, List.nil_append,
      utf8Decode_three _ _ _ _ (by omega) (by omega) hc3 (by unfold isUtf8Cont; omega)]
    have harith : (0xE0 + c.toNat / 0x1000 - 0xE0) * 0x1000 +
        (0x80 + (c.toNat / 0x40) % 0x40 - 0x80) * 0x40 + (0x80 + c.toNat % 0x40 - 0x80)
        = c.toNat := by omega
    rw [harith, Char.ofNat_toNat]
  · rw [utf8EncodeChar_four c h3]
    have hc4 : utf8Cont4 (0xF0 + c.toNat / 0x40000) (0x80 + (c.toNat / 0x1000) % 0x40) := by
      unfold utf8Cont4 isUtf8Cont
      split
      · omega
      · split
        · omega
        · omega
    rw [List.cons_append, List.cons_append, List.cons_append, List.cons_append,
      List.nil_append,
      utf8Decode_four _ _ _ _ _ (by omega) (by omega) hc4
        (by unfold isUtf8Cont; omega) (by unfold isUtf8Cont; omega)]
    have harith : (0xF0 + c.toNat / 0x40000 - 0xF0) * 0x40000 +
        (0x80 + (c.toNat / 0x1000) % 0x40 - 0x80) * 0x1000 +
        (0x80 + (c.toNat / 0x40) % 0x40 - 0x80) * 0x40 + (0x80 + c.toNat % 0x40 - 0x80)
        = c.toNat := by omega
    rw [harith, Char.ofNat_toNat]

/-- Lenient UTF-8 decoding inverts UTF-8 encoding on whole sequences. -/
theorem utf8Decode_encodeList (s : List Char) :
    utf8Decode (utf8EncodeList s) = s := by
  induction s with
  | nil => rfl
  | cons c cs ih =>
    rw [utf8EncodeList, utf8Decode_encodeChar, ih]

/-- One validation step never leaves more input than it was given. -/
theorem utf8ValidStep_length (b : Nat) (rest r : List Nat)
    (h : utf8ValidStep b rest = some r) : r.length ≤ rest.length := by
  rcases rest with _ | ⟨b2, _ | ⟨b3, _ | ⟨b4, t⟩⟩⟩ <;>
    (simp only [utf8ValidStep] at h; split_ifs at h <;>
      simp_all [List.length_cons] <;> omega)

/-- The fuel of `isValidUtf8Aux` is immaterial once it covers the input
length. -/
theorem isValidUtf8Aux_fuel (f : Nat) :
    ∀ (g : Nat) (bs : List Nat), bs.length ≤ f → bs.length ≤ g →
      isValidUtf8Aux f bs = isValidUtf8Aux g bs := by
  induction f with
  | zero =>
    intro g bs hf hg
    have hbs : bs = [] := List.eq_nil_of_length_eq_zero (Nat.le_zero.mp hf)
    subst hbs
    cases g <;> rfl
  | succ f ih =>
    intro g bs hf hg
    cases bs with
    | nil => cases g <;> rfl
    | cons b rest =>
      cases g with
      | zero => simp [List.length_cons] at hg
      | succ g =>
        simp only [isValidUtf8Aux]
        simp only [List.length_cons] at hf hg
        cases hstep : utf8ValidStep b rest with
        | none => rfl
        | some r =>
          have hlen := utf8ValidStep_length b rest r hstep
          exact ih g r (by omega) (by omega)

/-- `isValidUtf8Aux` with sufficient fuel is `isValidUtf8`. -/
theorem isValidUtf8Aux_eq (f : Nat) (bs : List Nat) (h : bs.length ≤ f) :
    isValidUtf8Aux f bs = isValidUtf8 bs :=
  isValidUtf8Aux_fuel f bs.length bs h (Nat.le_refl _)

/-- Unfolding `isValidUtf8` on an ASCII byte. -/
theorem isValidUtf8_one (b : Nat) (bs : List Nat) (h : b < 0x80) :
    isValidUtf8 (b :: bs) = isValidUtf8 bs := by
  have hstep : utf8ValidStep b bs = some bs := by simp [utf8ValidStep, h]
  unfold isValidUtf8
  simp only [List.length_cons, isValidUtf8Aux, hstep]

/-- Unfolding `isValidUtf8` on a valid two-byte leader. -/
theorem isValidUtf8_two (b b2 : Nat) (bs : List Nat)
    (h1 : 0xC2 ≤ b) (h2 : b < 0xE0) (h3 : isUtf8Cont b2) :
    isValidUtf8 (b :: b2 :: bs) = isValidUtf8 bs := by
  have e1 : ¬ b < 0x80 := by omega
  have e2 : ¬ b < 0xC2 := by omega
  have hstep : utf8ValidStep b (b2 :: bs) = some bs := by
    simp [utf8ValidStep, e1, e2, h2, h3]
  unfold isValidUtf8
  simp only [List.length_cons, isValidUtf8Aux, hstep]
  exact isValidUtf8Aux_eq (bs.length + 1) bs (by omega)

/-- Unfolding `isValidUtf8` on a valid three-byte leader. -/
theorem isValidUtf8_three (b b2 b3 : Nat) (bs : List Nat)
    (h1 : 0xE0 ≤ b) (h2 : b < 0xF0) (h3 : utf8Cont3 b b2) (h4 : isUtf8Cont b3) :
    isValidUtf8 (b :: b2 :: b3 :: bs) = isValidUtf8 bs := by
  have e1 : ¬ b < 0x80 := by omega
  have e2 : ¬ b < 0xC2 := by omega
  have e3 : ¬ b < 0xE0 := by omega
  have hstep : utf8ValidStep b (b2 :: b3 :: bs) = some bs := by
    simp [utf8ValidStep, e1, e2, e3, h2, h3, h4]
  unfold isValidUtf8
  simp only [List.length_cons, isValidUtf8Aux, hstep]
  exact isValidUtf8Aux_eq (bs.length + 1 + 1) bs (by omega)

/-- Unfolding `isValidUtf8` on a valid four-byte leader. -/
theorem isValidUtf8_four (b b2 b3 b4 : Nat) (bs : List Nat)
    (h1 : 0xF0 ≤ b) (h2 : b < 0xF5) (h3 : utf8Cont4 b b2)
    (h4 : isUtf8Cont b3) (h5 : isUtf8Cont b4) :
    isValidUtf8 (b :: b2 :: b3 :: b4 :: bs) = isValidUtf8 bs := by
  have e1 : ¬ b < 0x80 := by omega
  have e2 : ¬ b < 0xC2 := by omega
  have e3 : ¬ b < 0xE0 := by omega
  have e4 : ¬ b < 0xF0 := by omega
  have hstep : utf8ValidStep b (b2 :: b3 :: b4 :: bs) = some bs := by
    simp [utf8ValidStep, e1, e2, e3, e4, h2, h3, h4, h5]
  unfold isValidUtf8
  simp only [List.length_cons, isValidUtf8Aux, hstep]
  exact isValidUtf8Aux_eq (bs.length + 1 + 1 + 1) bs (by omega)

/-- Prepending the UTF-8 encoding of a scalar preserves strict validity. -/
theorem isValidUtf8_encodeChar (c : Char) (bs : List Nat) :
    isValidUtf8 (utf8EncodeChar c ++ bs) = isValidUtf8 bs := by
  have hv : c.toNat < 0xd800 ∨ (0xdfff < c.toNat ∧ c.toNat < 0x110000) := c.valid
  rcases Nat.lt_or_ge c.toNat 0x80 with h1 | h1
  · rw [utf8EncodeChar_one c h1, List.cons_append, List.nil_append,
      isValidUtf8_one _ _ h1]
  rcases Nat.lt_or_ge c.toNat 0x800 with h2 | h2
  · rw [utf8EncodeChar_two c h1 h2, List.cons_append, List.cons_append, List.nil_append,
      isValidUtf8_two _ _ _ (by omega) (by omega) (by unfold isUtf8Cont; omega)]
  rcases Nat.lt_or_ge c.toNat 0x10000 with h3 | h3
  · have hc3 : utf8Cont3 (0xE0 + c.toNat / 0x1000) (0x80 + (c.toNat / 0x40) % 0x40) := by
      unfold utf8Cont3 isUtf8Cont
      split
      · omega
      · split
        · omega
        · omega
    rw [utf8EncodeChar_three c h2 h3, List.cons_append, List.cons_append,
      List.cons_append, List.nil_append,
      isValidUtf8_three _ _ _ _ (by omega) (by omega) hc3 (by unfold isUtf8Cont; omega)]
  · have hc4 : utf8Cont4 (0xF0 + c.toNat / 0x40000) (0x80 + (c.toNat / 0x1000) % 0x40) := by
      unfold utf8Cont4 isUtf8Cont
      split
      · omega
      · split
        · omega
        · omega
    rw [utf8EncodeChar_four c h3, List.cons_append, List.cons_append, List.cons_append,
      List.cons_append, List.nil_append,
      isValidUtf8_four _ _ _ _ _ (by omega) (by omega) hc4
        (by unfold isUtf8Cont; omega) (by unfold isUtf8Cont; omega)]

/-- The UTF-8 encoding of any character sequence is strictly valid. -/
theorem isValidUtf8_encodeList (s : List Char) :
    isValidUtf8 (utf8EncodeList s) = true := by
  induction s with
  | nil => rfl
  | cons c cs ih => rw [utf8EncodeList, isValidUtf8_encodeChar, ih]

/-- `utf8EncodeChar` never produces the empty sequence. -/
theorem utf8EncodeChar_ne_nil (c : Char) : utf8EncodeChar c ≠ [] := by
  rcases Nat.lt_or_ge c.toNat 0x80 with h1 | h1
  · rw [utf8EncodeChar_one c h1]; simp
  rcases Nat.lt_or_ge c.toNat 0x800 with h2 | h2
  · rw [utf8EncodeChar_two c h1 h2]; simp
  rcases Nat.lt_or_ge c.toNat 0x10000 with h3 | h3
  · rw [utf8EncodeChar_three c h2 h3]; simp
  · rw [utf8EncodeChar_four c h3]; simp

/-- C7: for every string `s` consisting only of valid Unicode scalar values
(in this embedding, every `List Char`), decoding the UTF-8 encoding of `s`
with the `Utf8` variant yields exactly `s`. -/
theorem c7_utf8_roundtrip (s : List Char) :
    TextEncoding.decode .Utf8 (utf8EncodeList s) = s :=
  utf8Decode_encodeList s

/-- C6: `decode` is total for every encoding variant and every byte
sequence (it is a Lean function into `List Char`, the model of a Rust
`String`, so totality is witnessed by the trivial fourth conjunct);
`decode (Auto, [])` is the empty string; on strictly valid UTF-8 input
`decode Auto` is exactly the UTF-8 decoding (in particular it inverts
UTF-8 encoding). -/
theorem c6_decode_auto_total :
    TextEncoding.decode .Auto [] = [] ∧
    (∀ bytes : List Nat, isValidUtf8 bytes = true →
      TextEncoding.decode .Auto bytes = utf8Decode bytes) ∧
    (∀ s : List Char, TextEncoding.decode .Auto (utf8EncodeList s) = s) ∧
    (∀ (e : TextEncoding) (bytes : List Nat), ∃ out : List Char,
      TextEncoding.decode e bytes = out) := by
  refine ⟨rfl, ?_, ?_, fun e bytes => ⟨_, rfl⟩⟩
  · intro bytes hvalid
    by_cases hb : bytes = []
    · subst hb
      rfl
    · show detect_and_decode bytes = utf8Decode bytes
      rw [detect_and_decode, if_neg hb, if_pos (by simp [hvalid])]
  · intro s
    by_cases hs : utf8EncodeList s = []
    · cases s with
      | nil => rfl
      | cons c cs =>
        rw [utf8EncodeList] at hs
        exact absurd (List.append_eq_nil.mp hs).1 (utf8EncodeChar_ne_nil c)
    · show detect_and_decode (utf8EncodeList s) = s
      rw [detect_and_decode, if_neg hs, if_pos (by simp [isValidUtf8_encodeList])]
      exact utf8Decode_encodeList s

/-- Witness for C6 at a concrete input. -/
theorem c6_decode_auto_total_witness :
    isValidUtf8 [0x41] = true ∧
      TextEncoding.decode .Auto [0x41] = utf8Decode [0x41] :=
  ⟨by decide, c6_decode_auto_total.2.1 [0x41] (by decide)⟩

/-- `push` preserves `max_entries` and the render configuration. -/
theorem push_max_entries (s : LogStore) (now : Nat) (d : Direction) (data : List Nat) :
    (s.push now d data).max_entries = s.max_entries := by
  simp only [LogStore.push]
  split <;> rfl

/-- One push, described with `take`/`drop` arithmetic. -/
theorem push_entries (s : LogStore) (now : Nat) (d : Direction) (data : List Nat)
    (hs : s.entries.length ≤ s.max_entries) :
    (s.push now d data).entries
      = (s.entries ++ [mkEntry (now, d, data)]).drop
          ((s.entries.length + 1) - s.max_entries) := by
  simp only [LogStore.push, mkEntry]
  split
  · rename_i hgt
    simp only [List.length_append, List.length_cons, List.length_nil] at hgt
    show List.drop 1 _ = _
    congr 1
    omega
  · rename_i hle
    simp only [List.length_append, List.length_cons, List.length_nil] at hle
    show s.entries ++ _ = _
    rw [show s.entries.length + 1 - s.max_entries = 0 from by omega]
    simp

/-- General form of the bounded-store property: from any store within its
capacity, a sequence of pushes leaves the capacity-bounded suffix of the old
entries followed by the pushed entries. -/
theorem pushMany_entries (l : List (Nat × Direction × List Nat)) :
    ∀ s : LogStore, s.entries.length ≤ s.max_entries →
      (s.pushMany l).entries
        = (s.entries ++ l.map mkEntry).drop
            ((s.entries.length + l.length) - s.max_entries) ∧
      (s.pushMany l).max_entries = s.max_entries := by
  induction l with
  | nil =>
    intro s hs
    constructor
    · rw [show s.entries.length + ([] : List (Nat × Direction × List Nat)).length
          - s.max_entries = 0 from by simp only [List.length_nil]; omega]
      simp [LogStore.pushMany]
    · rfl
  | cons p rest ih =>
    intro s hs
    obtain ⟨now, d, data⟩ := p
    have hstep1 := push_entries s now d data hs
    have hstep2 : (s.push now d data).entries.length ≤ s.max_entries := by
      rw [hstep1]
      simp only [List.length_drop, List.length_append, List.length_cons, List.length_nil]
      omega
    have hmax := push_max_entries s now d data
    obtain ⟨ih1, ih2⟩ := ih (s.push now d data) (by rw [hmax]; exact hstep2)
    have hunfold : s.pushMany ((now, d, data) :: rest)
        = (s.push now d data).pushMany rest := rfl
    constructor
    · rw [hunfold, ih1, hstep1, hmax]
      have hd : (s.entries.length + 1) - s.max_entries
          ≤ (s.entries ++ [mkEntry (now, d, data)]).length := by
        simp only [List.length_append, List.length_cons, List.length_nil]
        omega
      rw [← List.drop_append_of_le_length hd, List.drop_drop, List.append_assoc]
      rw [show [mkEntry (now, d, data)] ++ rest.map mkEntry
          = List.map mkEntry ((now, d, data) :: rest) from by simp]
      congr 1
      simp only [List.length_drop, List.length_append, List.length_cons, List.length_nil,
        List.length_map]
      omega
    · rw [hunfold, ih2, hmax]

/-- C1: the store length never exceeds `max_entries` after any push
(including capacity 0); an overflowing push (length already at capacity)
drops exactly the single entry at index 0, the oldest; and from a fresh
store of capacity `k`, any sequence of `n` pushes leaves exactly the most
recent `min n k` pushed entries, in insertion order (`drop (n - k)` of the
pushed list). -/
theorem c1_logstore_bounded :
    (∀ (s : LogStore) (now : Nat) (d : Direction) (data : List Nat),
      s.entries.length ≤ s.max_entries →
        (s.push now d data).entries.length ≤ s.max_entries) ∧
    (∀ (s : LogStore) (now : Nat) (d : Direction) (data : List Nat),
      s.entries.length = s.max_entries →
        (s.push now d data).entries
          = (s.entries ++ [mkEntry (now, d, data)]).drop 1) ∧
    (∀ (k : Nat) (l : List (Nat × Direction × List Nat)),
      ((LogStore.new k).pushMany l).entries = (l.map mkEntry).drop (l.length - k)) := by
  refine ⟨?_, ?_, ?_⟩
  · intro s now d data hs
    rw [push_entries s now d data hs]
    simp only [List.length_drop, List.length_append, List.length_cons, List.length_nil]
    omega
  · intro s now d data hs
    rw [push_entries s now d data (by omega)]
    congr 1
    omega
  · intro k l
    have h := (pushMany_entries l (LogStore.new k) (by simp [LogStore.new])).1
    simpa [LogStore.new] using h

/-- Witness for C1 at concrete inputs: a push within capacity, an
overflowing push dropping the oldest, and three pushes into capacity 2
keeping the most recent two. -/
theorem c1_logstore_bounded_witness :
    (((LogStore.new 2).push 5 .Rx [1]).entries.length ≤ 2) ∧
    ((((LogStore.new 1).push 3 .Rx [7]).push 8 .Tx [9]).entries
      = (((LogStore.new 1).push 3 .Rx [7]).entries ++ [mkEntry (8, .Tx, [9])]).drop 1) ∧
    (((LogStore.new 2).pushMany [(1, .Rx, [1]), (2, .Tx, [2]), (3, .Rx, [3])]).entries
      = ([((1 : Nat), Direction.Rx, ([1] : List Nat)), (2, .Tx, [2]),
          (3, .Rx, [3])].map mkEntry).drop ([((1 : Nat), Direction.Rx, ([1] : List Nat)),
            (2, .Tx, [2]), (3, .Rx, [3])].length - 2)) :=
  ⟨c1_logstore_bounded.1 (LogStore.new 2) 5 .Rx [1] (by decide),
   c1_logstore_bounded.2.1 ((LogStore.new 1).push 3 .Rx [7]) 8 .Tx [9] (by decide),
   c1_logstore_bounded.2.2 2 [(1, .Rx, [1]), (2, .Tx, [2]), (3, .Rx, [3])]⟩

/-- `concatChunks` distributes over append. -/
theorem concatChunks_append (xs ys : List (List Nat)) :
    concatChunks (xs ++ ys) = concatChunks xs ++ concatChunks ys := by
  induction xs with
  | nil => rfl
  | cons x xs ih => simp [concatChunks, ih]

/-- A buffer without a newline byte passes through the extraction loop
untouched. -/
theorem extractLines_no_newline (buf : List Nat) (h : 10 ∉ buf) :
    extractLines buf = ([], buf) := by
  induction buf with
  | nil => rfl
  | cons b rest ih =>
    have hb : ¬ b = 10 := fun hb => h (hb ▸ List.mem_cons_self b rest)
    have hr : 10 ∉ rest := fun hr => h (List.mem_cons_of_mem b hr)
    simp [extractLines, hb, ih hr]

/-- The extraction loop takes the first newline-terminated prefix as the
first flushed line. -/
theorem extractLines_append (a t : List Nat) (h : 10 ∉ a) :
    extractLines (a ++ 10 :: t)
      = ((a ++ [10]) :: (extractLines t).1, (extractLines t).2) := by
  induction a with
  | nil => simp [extractLines]
  | cons x a ih =>
    have hx : ¬ x = 10 := fun hb => h (hb ▸ List.mem_cons_self x a)
    have ha : 10 ∉ a := fun hr => h (List.mem_cons_of_mem x hr)
    rw [List.cons_append, extractLines, if_neg hx, ih ha]
    rfl

/-- `extractLines` matches the source drain loop: repeatedly find the first
0x0A with `position`, split off the prefix through it (`drain(..=pos)`),
and stop when no newline remains. -/
theorem extractLines_drain (buf : List Nat) :
    extractLines buf
      = match position10 buf with
        | none => ([], buf)
        | some pos =>
          (buf.take (pos + 1) :: (extractLines (buf.drop (pos + 1))).1,
            (extractLines (buf.drop (pos + 1))).2) := by
  induction buf with
  | nil => rfl
  | cons b rest ih =>
    by_cases hb : b = 10
    · subst hb
      simp [position10, extractLines]
    · cases hp : position10 rest with
      | none =>
        have hnone : 10 ∉ rest := by
          intro hmem
          have : position10 rest ≠ none := by
            clear hp ih
            induction rest with
            | nil => cases hmem
            | cons y ys ihy =>
              rcases List.mem_cons.mp hmem with hy | hy
              · simp [position10, hy.symm]
              · by_cases hy10 : y = 10
                · simp [position10, hy10]
                · simp only [position10, if_neg hy10]
                  cases hcase : position10 ys with
                  | none => exact absurd hcase (ihy hy)
                  | some q => simp
          exact this hp
        have hres : extractLines rest = ([], rest) := extractLines_no_newline rest hnone
        simp [position10, extractLines, hb, hp, hres]
      | some p =>
        have ihr : extractLines rest
            = (rest.take (p + 1) :: (extractLines (rest.drop (p + 1))).1,
               (extractLines (rest.drop (p + 1))).2) := by
          rw [ih, hp]
        rw [position10, if_neg hb, hp,
          show Option.map (· + 1) (some p) = some (p + 1) from rfl]
        rw [extractLines, if_neg hb, ihr]
        simp only [List.take_succ_cons, List.drop_succ_cons]

/-- Byte conservation of the extraction loop: the flushed lines followed by
the remaining buffer are exactly the input buffer. -/
theorem extractLines_conservation (buf : List Nat) :
    concatChunks (extractLines buf).1 ++ (extractLines buf).2 = buf := by
  induction buf with
  | nil => rfl
  | cons b rest ih =>
    by_cases hb : b = 10
    · subst hb
      simpa [extractLines, concatChunks] using ih
    · cases hE : extractLines rest with
      | mk lines r =>
        rw [hE] at ih
        cases lines with
        | nil =>
          simp only [concatChunks, List.nil_append] at ih
          simp [extractLines, hb, hE, concatChunks, ih]
        | cons l ls =>
          simp only [concatChunks] at ih
          simp [extractLines, hb, hE, concatChunks, ih, List.append_assoc]

/-- Every line the extraction loop flushes ends with the 0x0A terminator. -/
theorem extractLines_terminated (buf : List Nat) :
    ∀ l ∈ (extractLines buf).1, ∃ pre, l = pre ++ [10] := by
  induction buf with
  | nil => intro l hl; cases hl
  | cons b rest ih =>
    by_cases hb : b = 10
    · subst hb
      intro l hl
      simp only [extractLines, if_pos rfl] at hl
      rcases List.mem_cons.mp hl with hl | hl
      · exact ⟨[], by simp [hl]⟩
      · exact ih l hl
    · intro l hl
      simp only [extractLines, if_neg hb] at hl
      cases hE : extractLines rest with
      | mk lines r =>
        rw [hE] at hl
        cases lines with
        | nil => simp at hl
        | cons l0 ls =>
          simp only [] at hl
          rcases List.mem_cons.mp hl with hl | hl
          · obtain ⟨pre, hpre⟩ := ih l0 (by rw [hE]; exact List.mem_cons_self l0 ls)
            exact ⟨b :: pre, by simp [hl, hpre]⟩
          · exact ih l (by rw [hE]; exact List.mem_cons_of_mem l0 hl)

/-- After the extraction loop, no newline byte remains in the buffer. -/
theorem extractLines_no_newline_left (buf : List Nat) :
    10 ∉ (extractLines buf).2 := by
  induction buf with
  | nil => simp [extractLines]
  | cons b rest ih =>
    by_cases hb : b = 10
    · subst hb
      simpa [extractLines] using ih
    · cases hE : extractLines rest with
      | mk lines r =>
        rw [hE] at ih
        cases lines with
        | nil =>
          simp only [extractLines, if_neg hb, hE]
          intro hmem
          rcases List.mem_cons.mp hmem with h10 | h10
          · exact hb h10.symm
          · exact ih h10
        | cons l ls => simpa [extractLines, hb, hE] using ih

/-- Byte conservation of one framing step: flushed lines plus the new buffer
are exactly the old buffer plus the chunk. -/
theorem feedChunk_conservation (ff : Bool) (buf chunk : List Nat) :
    concatChunks (feedChunk ff buf chunk).1 ++ (feedChunk ff buf chunk).2
      = buf ++ chunk := by
  simp only [feedChunk]
  split
  · rw [concatChunks_append]
    simpa [concatChunks] using extractLines_conservation (buf ++ chunk)
  · exact extractLines_conservation (buf ++ chunk)

/-- Byte conservation of a whole chunk sequence. -/
theorem feedAll_conservation (chunks : List (Bool × List Nat)) :
    ∀ buf : List Nat,
      concatChunks (feedAll buf chunks).1 ++ (feedAll buf chunks).2
        = buf ++ concatChunks (chunks.map Prod.snd) := by
  induction chunks with
  | nil => intro buf; simp [feedAll, concatChunks]
  | cons p rest ih =>
    intro buf
    obtain ⟨ff, c⟩ := p
    simp only [feedAll, concatChunks_append, List.map_cons, concatChunks]
    rw [List.append_assoc, ih (feedChunk ff buf c).2, ← List.append_assoc,
      feedChunk_conservation, List.append_assoc]

/-- C3 counterexample: a single unterminated chunk (here one byte `0x41`
with no `0x0A` and below the 1024-byte limit) flushes no line at all, so
the concatenation of the flushed lines (empty) differs from the
concatenation of the inputs — the unterminated remainder stays in the
accumulation buffer until a later chunk or flush trigger. -/
theorem c3_lossless_counterexample :
    ¬ concatChunks (feedAll [] [(false, [65])]).1 = concatChunks [[65]] := by
  decide

/-- C3 (amended): for any sequence of Rx chunks, the concatenation of all
flushed lines, in flush order, followed by the residual accumulation
buffer, equals the concatenation of the input chunks.  (The claim as
stated, without the residual buffer, fails on a trailing unterminated
chunk; see the counterexample.) -/
theorem c3_lossless_reassembly (chunks : List (Bool × List Nat)) :
    concatChunks (feedAll [] chunks).1 ++ (feedAll [] chunks).2
      = concatChunks (chunks.map Prod.snd) := by
  simpa using feedAll_conservation chunks []

/-- C4: after a chunk is appended, lines are repeatedly extracted while a
newline byte 0x0A remains (`extractLines_drain` ties the loop to the
source's `position`/`drain(..=pos)` form); every flushed line includes its
terminator as its last byte; no newline remains in the buffer afterwards;
and two already-terminated lines arriving in one chunk are flushed as two
separate entries, never coalesced. -/
theorem c4_eager_terminator_flush :
    (∀ (buf l : List Nat), l ∈ (extractLines buf).1 → ∃ pre, l = pre ++ [10]) ∧
    (∀ buf : List Nat, 10 ∉ (extractLines buf).2) ∧
    (∀ a b : List Nat, 10 ∉ a → 10 ∉ b →
      feedChunk false [] (a ++ 10 :: (b ++ [10])) = ([a ++ [10], b ++ [10]], [])) := by
  refine ⟨fun buf => extractLines_terminated buf, extractLines_no_newline_left, ?_⟩
  intro a b ha hb
  have hex : extractLines (a ++ 10 :: (b ++ [10]))
      = ([a ++ [10], b ++ [10]], []) := by
    rw [extractLines_append a (b ++ [10]) ha]
    rw [show (b ++ [10] : List Nat) = b ++ 10 :: [] from rfl]
    rw [extractLines_append b [] hb]
    rfl
  simp only [feedChunk, List.nil_append, hex]
  simp

/-- Witness for C4 at concrete inputs: the line `[97, 10]` extracted from
`[97, 10, 98]` carries its terminator, and the chunk `"a\nb\n"` flushes two
separate lines. -/
theorem c4_eager_terminator_flush_witness :
    (∃ pre, [97, 10] = pre ++ [10]) ∧
    feedChunk false [] ([97] ++ 10 :: ([98] ++ [10]))
      = ([[97] ++ [10], [98] ++ [10]], []) :=
  ⟨c4_eager_terminator_flush.1 [97, 10, 98] [97, 10] (by decide),
   c4_eager_terminator_flush.2.2 [97] [98] (by decide) (by decide)⟩

/-- C5: after the framer finishes processing any incoming chunk, the
accumulation buffer holds at most 1024 bytes; and whenever the buffer
exceeds 1024 bytes after terminator extraction, the entire remainder is
flushed unconditionally (regardless of the elapsed-time flag), leaving the
buffer empty before any further chunk is accepted. -/
theorem c5_size_bounded_flush :
    (∀ (ff : Bool) (buf chunk : List Nat), (feedChunk ff buf chunk).2.length ≤ 1024) ∧
    (∀ (ff : Bool) (buf chunk : List Nat),
      (extractLines (buf ++ chunk)).2.length > 1024 →
        feedChunk ff buf chunk
          = ((extractLines (buf ++ chunk)).1 ++ [(extractLines (buf ++ chunk)).2], [])) := by
  constructor
  · intro ff buf chunk
    simp only [feedChunk]
    split
    · simp
    · rename_i hcond
      rw [not_or] at hcond
      have h2 := hcond.2
      simp only [gt_iff_lt, not_lt] at h2
      simpa using h2
  · intro ff buf chunk h
    simp only [feedChunk]
    rw [if_pos (Or.inr h)]

/-- Witness for C5: a 1025-byte newline-free chunk triggers the
unconditional flush. -/
theorem c5_size_bounded_flush_witness :
    feedChunk false [] (List.replicate 1025 65)
      = ((extractLines ([] ++ List.replicate 1025 65)).1
          ++ [(extractLines ([] ++ List.replicate 1025 65)).2], []) :=
  c5_size_bounded_flush.2 false [] (List.replicate 1025 65) (by
    rw [List.nil_append, extractLines_no_newline _ (by
      simp only [List.mem_replicate]
      omega)]
    simp only [List.length_replicate, gt_iff_lt]
    omega)

/-- With timestamps off, one entry always renders (possibly to the empty
string when skipped). -/
theorem renderEntry_no_ts_ne_none (fRx fTx : Bool) (kws : List String) (now : Nat)
    (sh : Bool) (enc : TextEncoding) (e : LogEntry) :
    renderEntry fRx fTx kws now false sh enc e ≠ none := by
  unfold renderEntry
  split_ifs <;> (try simp_all) <;> (split <;> simp)

/-- With timestamps on, an entry renders provided its timestamp is not in
the future of the wall clock whenever the entry actually reaches the loop
body. -/
theorem renderEntry_ts_ne_none (fRx fTx : Bool) (kws : List String) (now : Nat)
    (sh : Bool) (enc : TextEncoding) (e : LogEntry)
    (h : e.rendered fRx fTx sh enc = true → e.timestamp ≤ now) :
    renderEntry fRx fTx kws now true sh enc e ≠ none := by
  obtain ⟨ts, d, data⟩ := e
  unfold renderEntry
  unfold LogEntry.rendered at h
  simp only at h
  cases d <;> cases fRx <;> cases fTx <;> cases sh <;>
    by_cases hws : (enc.decode data).all isRustWhitespace <;>
    simp_all <;> split_ifs <;> simp_all

/-- The entry loop renders when every entry does. -/
theorem renderEntries_ne_none (fRx fTx : Bool) (kws : List String) (now : Nat)
    (st sh : Bool) (enc : TextEncoding) :
    ∀ es : List LogEntry,
      (∀ e ∈ es, renderEntry fRx fTx kws now st sh enc e ≠ none) →
      renderEntries fRx fTx kws now st sh enc es ≠ none := by
  intro es
  induction es with
  | nil => intro _; simp [renderEntries]
  | cons e rest ih =>
    intro h
    have he := h e (List.mem_cons_self e rest)
    have hr := ih fun x hx => h x (List.mem_cons_of_mem e hx)
    simp only [renderEntries]
    cases hE : renderEntry fRx fTx kws now st sh enc e with
    | none => exact absurd hE he
    | some v =>
      cases hR : renderEntries fRx fTx kws now st sh enc rest with
      | none => exact absurd hR hr
      | some w => simp

/-- C10: rendering computes the `u64` subtraction `elapsed - timestamp`
(modelled as `none` on overflow) only for entries that reach the loop body
with `show_timestamp` on.  With `show_timestamp = false` rendering is total
unconditionally; with it on, rendering is total under the precondition that
the wall clock is at least every rendered entry's stored timestamp; and the
precondition is necessary: a store whose entry has a timestamp in the
future of the clock (clock moved backwards) makes the subtraction
underflow (`none`). -/
theorem c10_render_totality :
    (∀ (s : LogStore) (now : Nat) (sh : Bool) (enc : TextEncoding),
      s.to_text_with_encoding now false sh enc ≠ none) ∧
    (∀ (s : LogStore) (now : Nat) (sh : Bool) (enc : TextEncoding),
      (∀ e ∈ s.entries,
        e.rendered s.filter_rx s.filter_tx sh enc = true → e.timestamp ≤ now) →
      s.to_text_with_encoding now true sh enc ≠ none) ∧
    (LogStore.to_text_with_encoding
      { entries := [{ timestamp := 100, direction := .Rx, data := [65] }],
        max_entries := 10, filter_rx := true, filter_tx := true,
        highlight_keywords := [] } 50 true true .Auto = none) := by
  refine ⟨?_, ?_, by decide⟩
  · intro s now sh enc
    exact renderEntries_ne_none _ _ _ _ _ _ _ s.entries
      fun e _ => renderEntry_no_ts_ne_none _ _ _ _ _ _ e
  · intro s now sh enc h
    exact renderEntries_ne_none _ _ _ _ _ _ _ s.entries
      fun e he => renderEntry_ts_ne_none _ _ _ _ _ _ e (h e he)

/-- Witness for C10: with the clock ahead of the stored timestamp,
timestamped rendering succeeds. -/
theorem c10_render_totality_witness :
    LogStore.to_text_with_encoding
      { entries := [{ timestamp := 10, direction := .Rx, data := [65] }],
        max_entries := 10, filter_rx := true, filter_tx := true,
        highlight_keywords := [] } 20 true true .Auto ≠ none :=
  c10_render_totality.2.1 _ 20 true .Auto (by decide)

/-- C8: the filter and highlight setters never touch the stored entries
(and rendering, a pure function of the store in this embedding, cannot);
rendering skips exactly the entries whose direction is filtered out: after
5 Rx and 5 Tx pushes with `show_rx = false`, the hex render emits lines for
the 5 Tx entries only, while the store still holds all 10 entries. -/
theorem c8_filter_projection :
    (∀ (s : LogStore) (a b : Bool), (s.set_filter a b).entries = s.entries) ∧
    (∀ (s : LogStore) (ks : List String),
      (s.set_highlight_keywords ks).entries = s.entries) ∧
    (((LogStore.new 100).pushMany
        [(1, .Rx, [65]), (2, .Rx, [65]), (3, .Rx, [65]), (4, .Rx, [65]), (5, .Rx, [65]),
         (6, .Tx, [65]), (7, .Tx, [65]), (8, .Tx, [65]), (9, .Tx, [65]),
         (10, .Tx, [65])]).entries.length = 10) ∧
    ((((LogStore.new 100).pushMany
        [(1, .Rx, [65]), (2, .Rx, [65]), (3, .Rx, [65]), (4, .Rx, [65]), (5, .Rx, [65]),
         (6, .Tx, [65]), (7, .Tx, [65]), (8, .Tx, [65]), (9, .Tx, [65]),
         (10, .Tx, [65])]).set_filter false true).to_text_with_encoding 50 false true .Auto
      = some "TX: 41 \nTX: 41 \nTX: 41 \nTX: 41 \nTX: 41 \n") :=
  ⟨fun _ _ _ => rfl, fun _ _ => rfl, by decide, by decide⟩

/-- Command-drain characterisation: if the drain reports termination its
events end with the single `Closed`; otherwise it emits no `Closed` at
all. -/
theorem drainCmds_closed_spec (cs : List CmdIn) :
    ((drainCmds cs).2 = true →
      ∃ l, (drainCmds cs).1 = l ++ [SerialEvent.Closed] ∧ SerialEvent.Closed ∉ l) ∧
    ((drainCmds cs).2 = false → SerialEvent.Closed ∉ (drainCmds cs).1) := by
  induction cs with
  | nil => simp [drainCmds]
  | cons c rest ih =>
    cases c with
    | close =>
      constructor
      · intro _
        exact ⟨[], by simp [drainCmds]⟩
      · intro h
        simp [drainCmds] at h
    | send data result =>
      have hne : SerialEvent.Closed ∉ cmdEvents (CmdIn.send data result) := by
        cases result <;> simp [cmdEvents]
      constructor
      · intro hflag
        simp only [drainCmds] at hflag ⊢
        obtain ⟨l, hl, hnl⟩ := ih.1 hflag
        refine ⟨cmdEvents (CmdIn.send data result) ++ l, ?_, ?_⟩
        · rw [hl, List.append_assoc]
        · intro hm
          rcases List.mem_append.mp hm with hm | hm
          · exact hne hm
          · exact hnl hm
      · intro hflag
        simp only [drainCmds] at hflag ⊢
        have hnr := ih.2 hflag
        intro hm
        rcases List.mem_append.mp hm with hm | hm
        · exact hne hm
        · exact hnr hm
    | setDtr st err =>
      have hne : SerialEvent.Closed ∉ cmdEvents (CmdIn.setDtr st err) := by
        cases err <;> simp [cmdEvents]
      constructor
      · intro hflag
        simp only [drainCmds] at hflag ⊢
        obtain ⟨l, hl, hnl⟩ := ih.1 hflag
        refine ⟨cmdEvents (CmdIn.setDtr st err) ++ l, ?_, ?_⟩
        · rw [hl, List.append_assoc]
        · intro hm
          rcases List.mem_append.mp hm with hm | hm
          · exact hne hm
          · exact hnl hm
      · intro hflag
        simp only [drainCmds] at hflag ⊢
        have hnr := ih.2 hflag
        intro hm
        rcases List.mem_append.mp hm with hm | hm
        · exact hne hm
        · exact hnr hm
    | setRts st err =>
      have hne : SerialEvent.Closed ∉ cmdEvents (CmdIn.setRts st err) := by
        cases err <;> simp [cmdEvents]
      constructor
      · intro hflag
        simp only [drainCmds] at hflag ⊢
        obtain ⟨l, hl, hnl⟩ := ih.1 hflag
        refine ⟨cmdEvents (CmdIn.setRts st err) ++ l, ?_, ?_⟩
        · rw [hl, List.append_assoc]
        · intro hm
          rcases List.mem_append.mp hm with hm | hm
          · exact hne hm
          · exact hnl hm
      · intro hflag
        simp only [drainCmds] at hflag ⊢
        have hnr := ih.2 hflag
        intro hm
        rcases List.mem_append.mp hm with hm | hm
        · exact hne hm
        · exact hnr hm
    | getPinStates ps =>
      have hne : SerialEvent.Closed ∉ cmdEvents (CmdIn.getPinStates ps) := by
        simp [cmdEvents]
      constructor
      · intro hflag
        simp only [drainCmds] at hflag ⊢
        obtain ⟨l, hl, hnl⟩ := ih.1 hflag
        refine ⟨cmdEvents (CmdIn.getPinStates ps) ++ l, ?_, ?_⟩
        · rw [hl, List.append_assoc]
        · intro hm
          rcases List.mem_append.mp hm with hm | hm
          · exact hne hm
          · exact hnl hm
      · intro hflag
        simp only [drainCmds] at hflag ⊢
        have hnr := ih.2 hflag
        intro hm
        rcases List.mem_append.mp hm with hm | hm
        · exact hne hm
        · exact hnr hm

/-- Actor-loop characterisation: either the trace ends with its single
`Closed` event, or it contains none. -/
theorem actorLoop_closed_spec (iters : List ActorIter) :
    (∃ l, actorLoop iters = l ++ [SerialEvent.Closed] ∧ SerialEvent.Closed ∉ l) ∨
    SerialEvent.Closed ∉ actorLoop iters := by
  induction iters with
  | nil => right; simp [actorLoop]
  | cons it rest ih =>
    have hrx : SerialEvent.Closed
        ∉ (if it.readBytes = [] then [] else [SerialEvent.Rx it.readBytes]) := by
      split <;> simp
    cases hflag : (drainCmds it.cmds).2 with
    | true =>
      obtain ⟨l, hl, hnl⟩ := (drainCmds_closed_spec it.cmds).1 hflag
      left
      refine ⟨(if it.readBytes = [] then [] else [SerialEvent.Rx it.readBytes]) ++ l, ?_, ?_⟩
      · simp only [actorLoop, hflag, if_pos, hl]
        simp [List.append_assoc]
      · intro hm
        rcases List.mem_append.mp hm with hm | hm
        · exact hrx hm
        · exact hnl hm
    | false =>
      have hno := (drainCmds_closed_spec it.cmds).2 hflag
      rcases ih with ⟨l, hl, hnl⟩ | hnone
      · left
        refine ⟨(if it.readBytes = [] then []
            else [SerialEvent.Rx it.readBytes]) ++ (drainCmds it.cmds).1 ++ l, ?_, ?_⟩
        · simp only [actorLoop, hflag, if_neg, hl]
          simp [List.append_assoc]
        · intro hm
          rcases List.mem_append.mp hm with hm | hm
          · rcases List.mem_append.mp hm with hm | hm
            · exact hrx hm
            · exact hno hm
          · exact hnl hm
      · right
        simp only [actorLoop, hflag]
        intro hm
        rcases List.mem_append.mp hm with hm | hm
        · rcases List.mem_append.mp hm with hm | hm
          · exact hrx hm
          · exact hno hm
        · simp only [Bool.false_eq_true, if_false] at hm
          exact hnone hm

/-- Whole-lifetime characterisation of the emitted trace. -/
theorem actorTrace_closed_spec (p : String) (o : Except String Unit)
    (iters : List ActorIter) :
    (∃ l, actorTrace p o iters = l ++ [SerialEvent.Closed] ∧ SerialEvent.Closed ∉ l) ∨
    SerialEvent.Closed ∉ actorTrace p o iters := by
  cases o with
  | error e =>
    left
    exact ⟨[SerialEvent.Error ("open failed: " ++ e)], rfl, by simp⟩
  | ok u =>
    rcases actorLoop_closed_spec iters with ⟨l, hl, hnl⟩ | hnone
    · left
      refine ⟨SerialEvent.Opened p :: l, ?_, ?_⟩
      · simp [actorTrace, hl]
      · intro hm
        rcases List.mem_cons.mp hm with hm | hm
        · cases hm
        · exact hnl hm
    · right
      intro hm
      rcases List.mem_cons.mp hm with hm | hm
      · cases hm
      · exact hnone hm

/-- C2: in every actor lifetime at most one `Closed` is emitted and no
event follows it; and if the initial device open fails the trace is exactly
one `Error` immediately followed by one `Closed` — never `Opened` or `Rx` —
after which the thread terminates (the loop inputs are ignored).  "No event
follows `Closed`" is stated as: `Closed` never occurs among the trace's
non-final positions (`dropLast`). -/
theorem c2_closed_terminal :
    (∀ (p : String) (o : Except String Unit) (iters : List ActorIter),
      (actorTrace p o iters).count SerialEvent.Closed ≤ 1) ∧
    (∀ (p : String) (o : Except String Unit) (iters : List ActorIter),
      SerialEvent.Closed ∉ (actorTrace p o iters).dropLast) ∧
    (∀ (p e : String) (iters : List ActorIter),
      actorTrace p (.error e) iters
          = [SerialEvent.Error ("open failed: " ++ e), SerialEvent.Closed] ∧
        (∀ pn, SerialEvent.Opened pn ∉ actorTrace p (.error e) iters) ∧
        (∀ d, SerialEvent.Rx d ∉ actorTrace p (.error e) iters) ∧
        (actorTrace p (.error e) iters).count
          (SerialEvent.Error ("open failed: " ++ e)) = 1 ∧
        (actorTrace p (.error e) iters).count SerialEvent.Closed = 1) := by
  refine ⟨?_, ?_, ?_⟩
  · intro p o iters
    rcases actorTrace_closed_spec p o iters with ⟨l, hl, hnl⟩ | hnone
    · rw [hl, List.count_append]
      rw [List.count_eq_zero.mpr hnl]
      simp
    · rw [List.count_eq_zero.mpr hnone]
      omega
  · intro p o iters
    rcases actorTrace_closed_spec p o iters with ⟨l, hl, hnl⟩ | hnone
    · rw [hl, List.dropLast_concat]
      exact hnl
    · intro hm
      exact hnone (List.dropLast_subset _ hm)
  · intro p e iters
    refine ⟨rfl, ?_, ?_, ?_, ?_⟩
    · intro pn
      simp [actorTrace]
    · intro d
      simp [actorTrace]
    · simp [actorTrace, List.count_cons]
    · simp [actorTrace, List.count_cons]

/-- C9 counterexample: `SerialService::close` on a torn-down command channel
does not return an error to the caller — the source discards the send
result (`let _ = self.tx_cmd.send(Command::Close);`) and returns unit. -/
theorem c9_counterexample : SerialService.close false = Except.ok () := rfl

/-- C9 (amended): `send`, `set_dtr`, `set_rts` and `request_pin_states`
return an error to the caller when invoked after the actor has terminated
(the command channel is torn down), each as a single send attempt with no
retry; `close`, however, ignores the failed send and returns unit, so no
error is surfaced to its caller. -/
theorem c9_channel_closed_errors :
    (∀ data : List Nat, SerialService.send false data
        = Except.error "sending on a disconnected channel") ∧
    (∀ st : Bool, SerialService.set_dtr false st
        = Except.error "sending on a disconnected channel") ∧
    (∀ st : Bool, SerialService.set_rts false st
        = Except.error "sending on a disconnected channel") ∧
    (SerialService.request_pin_states false
        = Except.error "sending on a disconnected channel") ∧
    (SerialService.close false = Except.ok ()) :=
  ⟨fun _ => rfl, fun _ => rfl, fun _ => rfl, rfl, rfl⟩

end SerWave